import Mathlib

/-!
# git-worktree-helper: resolver, normalizer and registry parser

A shallow embedding of `src/main.go`.

Go strings are modelled by Lean `String`s, i.e. by sequences of Unicode code
points (valid UTF-8).  On such strings the byte-wise `strings.HasPrefix` agrees
with the code-point-wise prefix relation, because UTF-8 is self-synchronising.

Library functions are modelled by their documented behaviour:

* `strings.ToLower` maps `unicode.ToLower` over the runes; the ASCII branch of
  `unicode.ToLower` is embedded, the case table used above ASCII is a parameter;
* `regexp.ReplaceAllString` for a pattern `[class]+` is the two-state scanner
  `replaceAllRuns`;
* `strings.Split`, `strings.Fields`, `strings.TrimPrefix`, `strings.ReplaceAll`
  are the list functions below.
-/

namespace GitWorktreeHelper

/-! ## Data model -/

/-- One live worktree, `type worktreeCandidate struct` (main.go:15-18). -/
structure worktreeCandidate where
  Branch : String
  Path : String
deriving DecidableEq, Repr

/-- The two sentinel errors `errNoMatch` and `errMultipleMatch` (main.go:21-22). -/
inductive ResolveError where
  | errNoMatch
  | errMultipleMatch
deriving DecidableEq, Repr

deriving instance DecidableEq for Except

/-- The text of each sentinel error, `err.Error()`. -/
def ResolveError.Error : ResolveError → String
  | .errNoMatch => "no matching worktree"
  | .errMultipleMatch => "Multiple worktrees match; use a longer name"

/-! ## String library -/

/-- Go `strings.HasPrefix(s, pre)`: `s` begins with `pre`. -/
def HasPrefix (s pre : String) : Bool :=
  pre.data.isPrefixOf s.data

/-- Go `unicode.IsSpace`: the Latin-1 cases, then the `White_Space` table. -/
def unicodeIsSpace (r : Char) : Bool :=
  let n := r.toNat
  if n ≤ 0xFF then
    r == '\t' || r == '\n' || n == 0x0B || n == 0x0C || r == '\r' || r == ' '
      || n == 0x85 || n == 0xA0
  else
    n == 0x1680 || (0x2000 ≤ n && n ≤ 0x200A) || n == 0x2028 || n == 0x2029
      || n == 0x202F || n == 0x205F || n == 0x3000

/-- Go `unicode.ToLower`: ASCII is handled inline, every other rune goes through
the case table `caseTable` (Go: `unicode.To(unicode.LowerCase, r)`). -/
def unicodeToLower (caseTable : Char → Char) (r : Char) : Char :=
  if r.toNat ≤ 127 then
    if 'A'.toNat ≤ r.toNat ∧ r.toNat ≤ 'Z'.toNat then
      Char.ofNat (r.toNat + ('a'.toNat - 'A'.toNat))
    else r
  else caseTable r

/-- The character class `[[:space:]]` of `whitespacePattern` (main.go:23); in Go's
regexp syntax it is `[\t\n\v\f\r ]`. -/
def isSpaceClass (c : Char) : Bool :=
  c == '\t' || c == '\n' || c == '\x0b' || c == '\x0c' || c == '\r' || c == ' '

/-- The character class of `dashPattern`, the pattern `-+` (main.go:24). -/
def isDash (c : Char) : Bool :=
  c == '-'

/-- Go `re.ReplaceAllString(s, repl)` for a pattern `[cls]+`: scanning left to
right, every leftmost-longest match (a maximal run of `cls` characters) is
replaced by `repl`.  The flag tells whether the previous character belonged to
the match being consumed. -/
def replaceAllRuns (cls : Char → Bool) (repl : List Char) : Bool → List Char → List Char
  | _, [] => []
  | inMatch, c :: cs =>
    if cls c then
      if inMatch then replaceAllRuns cls repl true cs
      else repl ++ replaceAllRuns cls repl true cs
    else c :: replaceAllRuns cls repl false cs

/-- Go `strings.ReplaceAll(s, "/", "-")`. -/
def replaceSlash (s : List Char) : List Char :=
  s.map (fun c => if c == '/' then '-' else c)

/-! ## Branch normalizer -/

/-- Go `normalizeBranch` (main.go:171-177). -/
def normalizeBranch (caseTable : Char → Char) (raw : String) : String :=
  let lowered := raw.data.map (unicodeToLower caseTable)
  let normalized := replaceAllRuns isSpaceClass ['-'] false lowered
  let normalized := replaceSlash normalized
  let normalized := replaceAllRuns isDash ['-'] false normalized
  String.mk normalized

/-- The characters the three passes of `normalizeBranch` act on, taken together:
the class of `whitespacePattern`, the `/` of `strings.ReplaceAll`, and the class
of `dashPattern`. -/
def isSeparator (c : Char) : Bool :=
  isSpaceClass c || c == '/' || c == '-'

/-- Reference: the replacement of one maximal run, a single `-` for a run of
separators, the run itself otherwise. -/
def replaceRun (sep : Char → Bool) (run : List Char) : List Char :=
  if run.all sep then ['-'] else run

/-- Reference: cut a text into its maximal runs of separators and of other
characters, replace every run of separators by one `-`, and glue the runs
together again in order; nothing is trimmed. -/
def collapseRuns (sep : Char → Bool) (l : List Char) : List Char :=
  ((l.splitBy (fun a b => sep a == sep b)).map (replaceRun sep)).flatten

/-- A separator as the claim words it: a white-space character, `/` or `-`,
white space being what Go itself calls so (`unicode.IsSpace`, the notion
`strings.Fields` uses in this program). -/
def separatorAsStated (c : Char) : Bool :=
  unicodeIsSpace c || c == '/' || c == '-'

/-- Reference definition of the normalizer as the claim states it: lowercase,
then every maximal run of white space, `/` and `-` becomes one `-`. -/
def normalizeBranchSpec (caseTable : Char → Char) (raw : String) : String :=
  String.mk (collapseRuns separatorAsStated (raw.data.map (unicodeToLower caseTable)))

/-- A separator of the amended claim: one of the six ASCII white-space
characters tab, line feed, vertical tab, form feed, carriage return and space,
or `/`, or `-`. -/
def asciiSeparator (c : Char) : Bool :=
  ['\t', '\n', '\x0b', '\x0c', '\r', ' ', '/', '-'].contains c

/-- Reference definition of the normalizer for the amended claim: lowercase,
then every maximal run of ASCII separators becomes one `-`; every other
character, white space outside ASCII included, is kept. -/
def normalizeBranchRef (caseTable : Char → Char) (raw : String) : String :=
  String.mk (collapseRuns asciiSeparator (raw.data.map (unicodeToLower caseTable)))

/-- Two neighbouring characters are not both a dash; a text in which every pair
of neighbours is so has no run of two or more dashes. -/
def noDashPair (a b : Char) : Prop :=
  ¬ (a = '-' ∧ b = '-')

/-! ## Resolver -/

/-- The first loop of `resolveWorktreePath` (main.go:184-188): the path of the
first candidate whose path or branch equals the target. -/
def exactLoop (target : String) : List worktreeCandidate → Option String
  | [] => none
  | candidate :: rest =>
    if candidate.Path = target ∨ candidate.Branch = target then some candidate.Path
    else exactLoop target rest

/-- Insertion of a key into the Go map `matches`, kept as a duplicate-free list
of keys: `matches[k] = struct{}{}`. -/
def insertKey (m : List String) (k : String) : List String :=
  if k ∈ m then m else m ++ [k]

/-- The second loop of `resolveWorktreePath` (main.go:190-195): the key set of
`matches` after all candidates have been scanned. -/
def prefixLoop (target : String) : List String → List worktreeCandidate → List String
  | m, [] => m
  | m, candidate :: rest =>
    if HasPrefix candidate.Branch target || HasPrefix candidate.Path target then
      prefixLoop target (insertKey m candidate.Path) rest
    else prefixLoop target m rest

/-- Go `resolveWorktreePath` (main.go:179-208). -/
def resolveWorktreePath (target : String) (candidates : List worktreeCandidate) :
    Except ResolveError String :=
  if target = "" then .error .errNoMatch
  else
    match exactLoop target candidates with
    | some path => .ok path
    | none =>
      let m := prefixLoop target [] candidates
      if m.length = 1 then
        match m with
        | path :: _ => .ok path
        | [] => .error .errNoMatch
      else if m.length > 1 then .error .errMultipleMatch
      else .error .errNoMatch

/-! ## Registry reader -/

/-- What the resolution part of `cmdDelete` has done when it ends. -/
structure deleteResolution where
  stderr : List String
  staleConsulted : Bool
  worktreePath : String
deriving DecidableEq, Repr

/-- The resolution part of `cmdDelete` (main.go:450-471).  `candidates` is the
result of `worktreeCandidates()` (`none` on error) and `findStaleWorktree` the
filesystem fallback, whose answer depends on the directory tree only.  The
result carries the lines printed on stderr, whether the fallback was called, and
`worktreePath`; the empty `worktreePath` means the command returns 1, any other
value is the directory the command goes on to detach and remove. -/
def cmdDeleteResolve (candidates : Option (List worktreeCandidate))
    (findStaleWorktree : String → Except ResolveError String) (target : String) :
    deleteResolution :=
  let s0 : deleteResolution := { stderr := [], staleConsulted := false, worktreePath := "" }
  let s1 : deleteResolution :=
    match candidates with
    | none => s0
    | some cs =>
      match resolveWorktreePath target cs with
      | .ok resolved => { s0 with worktreePath := resolved }
      | .error resolveErr =>
        if resolveErr ≠ .errNoMatch then { s0 with stderr := s0.stderr ++ [resolveErr.Error] }
        else s0
  let s2 : deleteResolution :=
    if s1.worktreePath = "" then
      match findStaleWorktree target with
      | .ok resolved => { s1 with staleConsulted := true, worktreePath := resolved }
      | .error resolveErr =>
        if resolveErr ≠ .errNoMatch then
          { s1 with staleConsulted := true, stderr := s1.stderr ++ [resolveErr.Error] }
        else { s1 with staleConsulted := true }
    else s1
  if s2.worktreePath = "" then
    { s2 with stderr := s2.stderr ++ ["Worktree not found: " ++ target] }
  else s2

/-- The two candidates of `TestResolveWorktreePath` (main_test.go:27-30). -/
def testCandidates : List worktreeCandidate :=
  [{ Branch := "feat-demo", Path := "/tmp/feat-demo" },
   { Branch := "feat-alpine", Path := "/tmp/feat-alpine" }]

/-! ## Resolver: lemmas -/

theorem hasPrefix_iff (s pre : String) : HasPrefix s pre = true ↔ pre.data <+: s.data := by
  unfold HasPrefix
  exact List.isPrefixOf_iff_prefix

theorem exactLoop_eq_none_iff (target : String) (cs : List worktreeCandidate) :
    exactLoop target cs = none ↔ ∀ c ∈ cs, c.Path ≠ target ∧ c.Branch ≠ target := by
  induction cs with
  | nil => simp [exactLoop]
  | cons c rest ih =>
    by_cases h : c.Path = target ∨ c.Branch = target
    · simp only [exactLoop, if_pos h, List.mem_cons, forall_eq_or_imp]
      constructor
      · intro h0
        cases h0
      · rintro ⟨⟨h1, h2⟩, -⟩
        rcases h with h | h
        · exact absurd h h1
        · exact absurd h h2
    · simp only [exactLoop, if_neg h, List.mem_cons, forall_eq_or_imp, ih]
      constructor
      · intro h0
        exact ⟨⟨fun e => h (Or.inl e), fun e => h (Or.inr e)⟩, h0⟩
      · intro h0
        exact h0.2

theorem exactLoop_first (target : String) (cs : List worktreeCandidate)
    (h : ∃ c ∈ cs, c.Path = target ∨ c.Branch = target) :
    ∃ pre c post, cs = pre ++ c :: post ∧
      (∀ d ∈ pre, d.Path ≠ target ∧ d.Branch ≠ target) ∧
      (c.Path = target ∨ c.Branch = target) ∧ exactLoop target cs = some c.Path := by
  induction cs with
  | nil =>
    obtain ⟨c, hc, -⟩ := h
    cases hc
  | cons a rest ih =>
    by_cases ha : a.Path = target ∨ a.Branch = target
    · refine ⟨[], a, rest, rfl, ?_, ha, ?_⟩
      · intro d hd
        cases hd
      · simp [exactLoop, ha]
    · have hrest : ∃ c ∈ rest, c.Path = target ∨ c.Branch = target := by
        obtain ⟨c, hc, hex⟩ := h
        rcases List.mem_cons.1 hc with rfl | hc
        · exact absurd hex ha
        · exact ⟨c, hc, hex⟩
      obtain ⟨pre, c, post, hsplit, hpre, hc, hres⟩ := ih hrest
      refine ⟨a :: pre, c, post, by rw [hsplit]; rfl, ?_, hc, ?_⟩
      · intro d hd
        rcases List.mem_cons.1 hd with rfl | hd
        · exact ⟨fun e => ha (Or.inl e), fun e => ha (Or.inr e)⟩
        · exact hpre d hd
      · simp only [exactLoop, if_neg ha]
        exact hres

theorem mem_insertKey (m : List String) (k x : String) :
    x ∈ insertKey m k ↔ x ∈ m ∨ x = k := by
  unfold insertKey
  by_cases h : k ∈ m
  · rw [if_pos h]
    constructor
    · exact Or.inl
    · rintro (h1 | rfl)
      · exact h1
      · exact h
  · rw [if_neg h]
    simp

theorem nodup_insertKey (m : List String) (k : String) (hm : m.Nodup) :
    (insertKey m k).Nodup := by
  unfold insertKey
  by_cases h : k ∈ m
  · rw [if_pos h]
    exact hm
  · rw [if_neg h]
    rw [List.nodup_append]
    refine ⟨hm, List.nodup_singleton k, ?_⟩
    intro x hx hx2
    rw [List.mem_singleton] at hx2
    exact h (hx2 ▸ hx)

theorem nodup_prefixLoop (target : String) (cs : List worktreeCandidate) :
    ∀ m : List String, m.Nodup → (prefixLoop target m cs).Nodup := by
  induction cs with
  | nil =>
    intro m hm
    exact hm
  | cons c rest ih =>
    intro m hm
    unfold prefixLoop
    split
    · exact ih _ (nodup_insertKey m c.Path hm)
    · exact ih _ hm

theorem mem_prefixLoop (target : String) (cs : List worktreeCandidate) :
    ∀ (m : List String) (x : String), x ∈ prefixLoop target m cs ↔
      x ∈ m ∨ ∃ c ∈ cs, (target.data <+: c.Branch.data ∨ target.data <+: c.Path.data) ∧
        c.Path = x := by
  induction cs with
  | nil =>
    intro m x
    simp [prefixLoop]
  | cons c rest ih =>
    intro m x
    unfold prefixLoop
    by_cases hc : target.data <+: c.Branch.data ∨ target.data <+: c.Path.data
    · have hb : (HasPrefix c.Branch target || HasPrefix c.Path target) = true := by
        rw [Bool.or_eq_true, hasPrefix_iff, hasPrefix_iff]
        exact hc
      rw [if_pos hb, ih, mem_insertKey]
      constructor
      · rintro ((h | h) | ⟨d, hd, hp, hx⟩)
        · exact Or.inl h
        · exact Or.inr ⟨c, List.mem_cons_self _ _, hc, h.symm⟩
        · exact Or.inr ⟨d, List.mem_cons_of_mem _ hd, hp, hx⟩
      · rintro (h | ⟨d, hd, hp, hx⟩)
        · exact Or.inl (Or.inl h)
        · rcases List.mem_cons.1 hd with rfl | hd
          · exact Or.inl (Or.inr hx.symm)
          · exact Or.inr ⟨d, hd, hp, hx⟩
    · have hb : ¬ (HasPrefix c.Branch target || HasPrefix c.Path target) = true := by
        rw [Bool.or_eq_true, hasPrefix_iff, hasPrefix_iff]
        exact hc
      rw [if_neg hb, ih]
      constructor
      · rintro (h | ⟨d, hd, hp, hx⟩)
        · exact Or.inl h
        · exact Or.inr ⟨d, List.mem_cons_of_mem _ hd, hp, hx⟩
      · rintro (h | ⟨d, hd, hp, hx⟩)
        · exact Or.inl h
        · rcases List.mem_cons.1 hd with rfl | hd
          · exact absurd hp hc
          · exact Or.inr ⟨d, hd, hp, hx⟩

/-- Membership in the final key set of `matches`. -/
theorem mem_matches (target : String) (cs : List worktreeCandidate) (x : String) :
    x ∈ prefixLoop target [] cs ↔
      ∃ c ∈ cs, (target.data <+: c.Branch.data ∨ target.data <+: c.Path.data) ∧ c.Path = x := by
  rw [mem_prefixLoop]
  simp

theorem nodup_matches (target : String) (cs : List worktreeCandidate) :
    (prefixLoop target [] cs).Nodup :=
  nodup_prefixLoop target cs [] List.nodup_nil

/-- The outcome of `resolveWorktreePath` once the first two guards are passed. -/
theorem resolve_of_no_exact (target : String) (cs : List worktreeCandidate)
    (ht : target ≠ "") (hex : ∀ c ∈ cs, c.Path ≠ target ∧ c.Branch ≠ target) :
    resolveWorktreePath target cs =
      match prefixLoop target [] cs with
      | [] => .error .errNoMatch
      | [p] => .ok p
      | _ :: _ :: _ => .error .errMultipleMatch := by
  unfold resolveWorktreePath
  rw [if_neg ht, (exactLoop_eq_none_iff target cs).2 hex]
  rcases prefixLoop target [] cs with _ | ⟨a, _ | ⟨b, l⟩⟩ <;> simp

theorem resolve_of_exact (target : String) (cs : List worktreeCandidate) (p : String)
    (ht : target ≠ "") (hex : exactLoop target cs = some p) :
    resolveWorktreePath target cs = .ok p := by
  unfold resolveWorktreePath
  rw [if_neg ht, hex]

theorem eq_singleton_of_nodup {l : List String} {p : String} (hn : l.Nodup)
    (hm : ∀ x, x ∈ l ↔ x = p) : l = [p] := by
  rcases l with _ | ⟨a, t⟩
  · have hp : p ∈ ([] : List String) := (hm p).2 rfl
    cases hp
  · have ha : a = p := (hm a).1 (List.mem_cons_self _ _)
    rcases t with _ | ⟨b, t⟩
    · rw [ha]
    · have hb : b = p := (hm b).1 (List.mem_cons_of_mem _ (List.mem_cons_self _ _))
      rw [List.nodup_cons] at hn
      exact absurd (by rw [ha, hb]; exact List.mem_cons_self _ _) hn.1

/-! ## Resolver: the claims -/

/-- C1. Exact match has priority and a first-hit tie-break: for a non-empty
query, as soon as some candidate has its path or its branch equal to the query,
`resolveWorktreePath` succeeds with the path of the first such candidate in list
order, whatever the prefix stage would yield. -/
theorem resolve_exact_first (q : String) (cs : List worktreeCandidate) (hq : q ≠ "")
    (h : ∃ c ∈ cs, c.Path = q ∨ c.Branch = q) :
    ∃ pre c post, cs = pre ++ c :: post ∧
      (∀ d ∈ pre, d.Path ≠ q ∧ d.Branch ≠ q) ∧
      (c.Path = q ∨ c.Branch = q) ∧
      resolveWorktreePath q cs = .ok c.Path := by
  obtain ⟨pre, c, post, hsplit, hpre, hc, hres⟩ := exactLoop_first q cs h
  exact ⟨pre, c, post, hsplit, hpre, hc, resolve_of_exact q cs c.Path hq hres⟩

/-- C1 at branches `feat-demo` and `feat` with query `feat`: the exact match on
the second candidate wins although both branches start with the query. -/
theorem resolve_exact_first_witness :
    "feat" ≠ "" ∧
    resolveWorktreePath "feat"
        [{ Branch := "feat-demo", Path := "/tmp/feat-demo" },
         { Branch := "feat", Path := "/tmp/feat" }] = .ok "/tmp/feat" ∧
    ∃ pre c post,
      [({ Branch := "feat-demo", Path := "/tmp/feat-demo" } : worktreeCandidate),
        { Branch := "feat", Path := "/tmp/feat" }] = pre ++ c :: post ∧
      (∀ d ∈ pre, d.Path ≠ "feat" ∧ d.Branch ≠ "feat") ∧
      (c.Path = "feat" ∨ c.Branch = "feat") ∧
      resolveWorktreePath "feat"
        [{ Branch := "feat-demo", Path := "/tmp/feat-demo" },
         { Branch := "feat", Path := "/tmp/feat" }] = .ok c.Path :=
  ⟨by decide, by decide,
    resolve_exact_first "feat" _ (by decide)
      ⟨{ Branch := "feat", Path := "/tmp/feat" }, by decide, Or.inr rfl⟩⟩

/-- C2. Unique prefix match: for a non-empty query that no candidate matches
exactly, when the paths of the candidates whose branch or path starts with the
query form the one-element set `{p}`, `resolveWorktreePath` succeeds with `p`,
however many candidates carry that path. -/
theorem resolve_unique_prefix (q : String) (cs : List worktreeCandidate) (p : String)
    (hq : q ≠ "") (hex : ∀ c ∈ cs, c.Path ≠ q ∧ c.Branch ≠ q)
    (hD : ∀ x, (∃ c ∈ cs, (q.data <+: c.Branch.data ∨ q.data <+: c.Path.data) ∧ c.Path = x)
      ↔ x = p) :
    resolveWorktreePath q cs = .ok p := by
  have hm : prefixLoop q [] cs = [p] :=
    eq_singleton_of_nodup (nodup_matches q cs) (fun x => (mem_matches q cs x).trans (hD x))
  rw [resolve_of_no_exact q cs hq hex, hm]

/-- C2 at the query `feat-d` over three candidates, two of which match by prefix
and share one path. -/
theorem resolve_unique_prefix_witness :
    resolveWorktreePath "feat-d"
      [{ Branch := "feat-demo", Path := "/tmp/shared" },
       { Branch := "feat-docs", Path := "/tmp/shared" },
       { Branch := "main", Path := "/tmp/main" }] = .ok "/tmp/shared" := by
  refine resolve_unique_prefix "feat-d" _ "/tmp/shared" (by decide) (by decide) ?_
  intro x
  constructor
  · rintro ⟨c, hc, hp, rfl⟩
    simp only [List.mem_cons, List.mem_singleton, List.not_mem_nil, or_false] at hc
    rcases hc with rfl | rfl | rfl
    · rfl
    · rfl
    · revert hp
      decide
  · rintro rfl
    exact ⟨{ Branch := "feat-demo", Path := "/tmp/shared" }, by decide, by decide, rfl⟩

/-- C3. Ambiguity: `resolveWorktreePath` fails with `errMultipleMatch` exactly
when the query is non-empty, no candidate matches it exactly, and two candidates
whose branch or path starts with the query have different paths. -/
theorem resolve_ambiguous_iff (q : String) (cs : List worktreeCandidate) :
    resolveWorktreePath q cs = .error .errMultipleMatch ↔
      q ≠ "" ∧ (∀ c ∈ cs, c.Path ≠ q ∧ c.Branch ≠ q) ∧
      ∃ c₁ ∈ cs, ∃ c₂ ∈ cs,
        (q.data <+: c₁.Branch.data ∨ q.data <+: c₁.Path.data) ∧
        (q.data <+: c₂.Branch.data ∨ q.data <+: c₂.Path.data) ∧
        c₁.Path ≠ c₂.Path := by
  by_cases hq : q = ""
  · constructor
    · intro h
      rw [hq] at h
      simp [resolveWorktreePath] at h
    · rintro ⟨h, -⟩
      exact absurd hq h
  by_cases hex : ∀ c ∈ cs, c.Path ≠ q ∧ c.Branch ≠ q
  · rw [resolve_of_no_exact q cs hq hex]
    have hn := nodup_matches q cs
    have hm := mem_matches q cs
    rcases hl : prefixLoop q [] cs with _ | ⟨a, _ | ⟨b, l⟩⟩
    · constructor
      · intro h
        cases h
      · rintro ⟨-, -, c₁, h₁, -, -, p₁, -, -⟩
        have : c₁.Path ∈ prefixLoop q [] cs := (hm _).2 ⟨c₁, h₁, p₁, rfl⟩
        rw [hl] at this
        cases this
    · constructor
      · intro h
        cases h
      · rintro ⟨-, -, c₁, h₁, c₂, h₂, p₁, p₂, hne⟩
        have e₁ : c₁.Path ∈ prefixLoop q [] cs := (hm _).2 ⟨c₁, h₁, p₁, rfl⟩
        have e₂ : c₂.Path ∈ prefixLoop q [] cs := (hm _).2 ⟨c₂, h₂, p₂, rfl⟩
        rw [hl, List.mem_singleton] at e₁ e₂
        exact absurd (e₁.trans e₂.symm) hne
    · constructor
      · intro _
        rw [hl] at hn hm
        obtain ⟨c₁, h₁, p₁, e₁⟩ := (hm a).1 (List.mem_cons_self _ _)
        obtain ⟨c₂, h₂, p₂, e₂⟩ := (hm b).1 (List.mem_cons_of_mem _ (List.mem_cons_self _ _))
        refine ⟨hq, hex, c₁, h₁, c₂, h₂, p₁, p₂, ?_⟩
        rw [e₁, e₂]
        intro hab
        rw [List.nodup_cons] at hn
        exact hn.1 (hab ▸ List.mem_cons_self _ _)
      · intro _
        rfl
  · constructor
    · intro h
      have hsome : exactLoop q cs ≠ none := fun e => hex ((exactLoop_eq_none_iff q cs).1 e)
      obtain ⟨p, hp⟩ := Option.ne_none_iff_exists'.1 hsome
      rw [resolve_of_exact q cs p hq hp] at h
      cases h
    · rintro ⟨-, h, -⟩
      exact absurd h hex

/-- C3 at the test of the repository: the query `feat` over the two test
candidates is ambiguous. -/
theorem resolve_ambiguous_iff_witness :
    resolveWorktreePath "feat" testCandidates = .error .errMultipleMatch :=
  (resolve_ambiguous_iff "feat" testCandidates).2
    ⟨by decide, by decide,
      { Branch := "feat-demo", Path := "/tmp/feat-demo" }, by decide,
      { Branch := "feat-alpine", Path := "/tmp/feat-alpine" }, by decide,
      by decide, by decide, by decide⟩

/-- C4. No match: the empty query fails with `errNoMatch` over every candidate
list, and a non-empty query fails with `errNoMatch` exactly when no candidate has
a branch or a path starting with it. -/
theorem resolve_noMatch :
    (∀ cs : List worktreeCandidate, resolveWorktreePath "" cs = .error .errNoMatch) ∧
    (∀ (q : String) (cs : List worktreeCandidate), q ≠ "" →
      (resolveWorktreePath q cs = .error .errNoMatch ↔
        ∀ c ∈ cs, ¬ q.data <+: c.Branch.data ∧ ¬ q.data <+: c.Path.data)) := by
  refine ⟨fun cs => by simp [resolveWorktreePath], ?_⟩
  intro q cs hq
  by_cases hex : ∀ c ∈ cs, c.Path ≠ q ∧ c.Branch ≠ q
  · rw [resolve_of_no_exact q cs hq hex]
    have hm := mem_matches q cs
    rcases hl : prefixLoop q [] cs with _ | ⟨a, _ | ⟨b, l⟩⟩
    · constructor
      · intro _ c hc
        have hnot : ¬ (q.data <+: c.Branch.data ∨ q.data <+: c.Path.data) := by
          intro hp
          have : c.Path ∈ prefixLoop q [] cs := (hm _).2 ⟨c, hc, hp, rfl⟩
          rw [hl] at this
          cases this
        exact ⟨fun e => hnot (Or.inl e), fun e => hnot (Or.inr e)⟩
      · intro _
        rfl
    · constructor
      · intro h
        cases h
      · intro h
        rw [hl] at hm
        obtain ⟨c, hc, hp, -⟩ := (hm a).1 (List.mem_cons_self _ _)
        rcases hp with hp | hp
        · exact absurd hp (h c hc).1
        · exact absurd hp (h c hc).2
    · constructor
      · intro h
        cases h
      · intro h
        rw [hl] at hm
        obtain ⟨c, hc, hp, -⟩ := (hm a).1 (List.mem_cons_self _ _)
        rcases hp with hp | hp
        · exact absurd hp (h c hc).1
        · exact absurd hp (h c hc).2
  · constructor
    · intro h
      have hsome : exactLoop q cs ≠ none := fun e => hex ((exactLoop_eq_none_iff q cs).1 e)
      obtain ⟨p, hp⟩ := Option.ne_none_iff_exists'.1 hsome
      rw [resolve_of_exact q cs p hq hp] at h
      cases h
    · intro h
      exfalso
      apply hex
      intro c hc
      constructor
      · intro e
        exact (h c hc).2 (e ▸ List.prefix_refl _)
      · intro e
        exact (h c hc).1 (e ▸ List.prefix_refl _)

/-- C4 at the tests of the repository: the empty query and the query `missing`
over the two test candidates both fail with `errNoMatch`. -/
theorem resolve_noMatch_witness :
    resolveWorktreePath "" testCandidates = .error .errNoMatch ∧
    "missing" ≠ "" ∧
    resolveWorktreePath "missing" testCandidates = .error .errNoMatch :=
  ⟨resolve_noMatch.1 testCandidates, by decide,
    (resolve_noMatch.2 "missing" testCandidates (by decide)).2 (by decide)⟩

/-- C5, as stated, fails at a candidate whose branch is the empty string: the
strings of the list are all distinct, and the candidate's own branch resolves to
`errNoMatch` instead of its path. -/
theorem resolve_reflexive_counterexample :
    ([({ Branch := "", Path := "/tmp/a" } : worktreeCandidate)].map (fun c => c.Branch) ++
      [({ Branch := "", Path := "/tmp/a" } : worktreeCandidate)].map (fun c => c.Path)).Nodup ∧
    ¬ (∀ cs : List worktreeCandidate,
        (cs.map (fun c => c.Branch) ++ cs.map (fun c => c.Path)).Nodup →
        ∀ c ∈ cs, resolveWorktreePath c.Path cs = .ok c.Path ∧
          resolveWorktreePath c.Branch cs = .ok c.Path) ∧
    resolveWorktreePath "" [{ Branch := "", Path := "/tmp/a" }] = .error .errNoMatch := by
  refine ⟨by decide, ?_, by decide⟩
  intro h
  have h2 := (h [{ Branch := "", Path := "/tmp/a" }] (by decide)
    { Branch := "", Path := "/tmp/a" } (by decide)).2
  revert h2
  decide

/-- C5, amended. Reflexivity of exact match: in a candidate list whose branch
and path strings are all distinct, a candidate's own non-empty path and its own
non-empty branch both resolve to that candidate's path. -/
theorem resolve_reflexive (cs : List worktreeCandidate)
    (hd : (cs.map (fun c => c.Branch) ++ cs.map (fun c => c.Path)).Nodup)
    (c : worktreeCandidate) (hc : c ∈ cs) :
    (c.Path ≠ "" → resolveWorktreePath c.Path cs = .ok c.Path) ∧
    (c.Branch ≠ "" → resolveWorktreePath c.Branch cs = .ok c.Path) := by
  rw [List.nodup_append] at hd
  obtain ⟨hb, -, hdisj⟩ := hd
  have hcross : ∀ d ∈ cs, ∀ e ∈ cs, d.Branch ≠ e.Path := by
    intro d hdm e hem heq
    exact hdisj (List.mem_map.2 ⟨d, hdm, rfl⟩) (List.mem_map.2 ⟨e, hem, heq.symm⟩)
  constructor
  · intro hne
    obtain ⟨pre, d, post, hsplit, -, hdq, hres⟩ :=
      exactLoop_first c.Path cs ⟨c, hc, Or.inl rfl⟩
    have hdm : d ∈ cs := by
      rw [hsplit]
      simp
    rw [resolve_of_exact c.Path cs d.Path hne hres]
    rcases hdq with h | h
    · rw [h]
    · exact absurd h (hcross d hdm c hc)
  · intro hne
    obtain ⟨pre, d, post, hsplit, -, hdq, hres⟩ :=
      exactLoop_first c.Branch cs ⟨c, hc, Or.inr rfl⟩
    have hdm : d ∈ cs := by
      rw [hsplit]
      simp
    rw [resolve_of_exact c.Branch cs d.Path hne hres]
    rcases hdq with h | h
    · exact absurd h.symm (hcross c hc d hdm)
    · have hdc : d = c := List.inj_on_of_nodup_map hb hdm hc h
      rw [hdc]

/-- C5, amended, at the two test candidates: path and branch of the second
candidate both resolve to its path. -/
theorem resolve_reflexive_witness :
    resolveWorktreePath "/tmp/feat-alpine" testCandidates = .ok "/tmp/feat-alpine" ∧
    resolveWorktreePath "feat-alpine" testCandidates = .ok "/tmp/feat-alpine" :=
  ⟨(resolve_reflexive testCandidates (by decide)
      { Branch := "feat-alpine", Path := "/tmp/feat-alpine" } (by decide)).1 (by decide),
   (resolve_reflexive testCandidates (by decide)
      { Branch := "feat-alpine", Path := "/tmp/feat-alpine" } (by decide)).2 (by decide)⟩

/-! ## Normalizer: lemmas -/

theorem isSeparator_dash : isSeparator '-' = true := by decide

theorem isSeparator_of_space {c : Char} (h : isSpaceClass c = true) : isSeparator c = true := by
  simp [isSeparator, h]

theorem replaceSlash_cons (c : Char) (l : List Char) :
    replaceSlash (c :: l) = (if c = '/' then '-' else c) :: replaceSlash l := by
  simp [replaceSlash]

theorem replaceAllRuns_inside (cls : Char → Bool) (repl : List Char) (c : Char)
    (cs : List Char) (h : cls c = true) :
    replaceAllRuns cls repl true (c :: cs) = replaceAllRuns cls repl true cs := by
  simp [replaceAllRuns, h]

theorem replaceAllRuns_start (cls : Char → Bool) (repl : List Char) (c : Char)
    (cs : List Char) (h : cls c = true) :
    replaceAllRuns cls repl false (c :: cs) = repl ++ replaceAllRuns cls repl true cs := by
  simp [replaceAllRuns, h]

theorem replaceAllRuns_outside (cls : Char → Bool) (repl : List Char) (b : Bool) (c : Char)
    (cs : List Char) (h : cls c = false) :
    replaceAllRuns cls repl b (c :: cs) = c :: replaceAllRuns cls repl false cs := by
  simp [replaceAllRuns, h]

/-- The three passes of `normalizeBranch` amount to one pass over the class of
all separators, whatever the state of the scanners at a position. -/
theorem three_passes (l : List Char) :
    replaceAllRuns isDash ['-'] false (replaceSlash (replaceAllRuns isSpaceClass ['-'] false l))
        = replaceAllRuns isSeparator ['-'] false l ∧
    replaceAllRuns isDash ['-'] true (replaceSlash (replaceAllRuns isSpaceClass ['-'] true l))
        = replaceAllRuns isSeparator ['-'] true l ∧
    replaceAllRuns isDash ['-'] true (replaceSlash (replaceAllRuns isSpaceClass ['-'] false l))
        = replaceAllRuns isSeparator ['-'] true l := by
  have dIn : ∀ X, replaceAllRuns isDash ['-'] true ('-' :: X)
      = replaceAllRuns isDash ['-'] true X :=
    fun X => replaceAllRuns_inside isDash ['-'] '-' X rfl
  have dSt : ∀ X, replaceAllRuns isDash ['-'] false ('-' :: X)
      = ['-'] ++ replaceAllRuns isDash ['-'] true X :=
    fun X => replaceAllRuns_start isDash ['-'] '-' X rfl
  have hne : ('-' : Char) ≠ '/' := by decide
  induction l with
  | nil => exact ⟨rfl, rfl, rfl⟩
  | cons c l ih =>
    obtain ⟨ih1, ih2, ih3⟩ := ih
    by_cases hs : isSpaceClass c = true
    · have hsep := isSeparator_of_space hs
      simp only [replaceAllRuns_start _ _ c l hs, replaceAllRuns_inside _ _ c l hs,
        replaceAllRuns_start _ _ c l hsep, replaceAllRuns_inside _ _ c l hsep,
        List.singleton_append, replaceSlash_cons, if_neg hne, dIn, dSt, ih2, and_self]
    · have hs2 : isSpaceClass c = false := by simpa using hs
      by_cases hsl : c = '/'
      · have hsep : isSeparator c = true := by
          rw [hsl]
          decide
        simp only [replaceAllRuns_outside _ _ _ c l hs2,
          replaceAllRuns_start _ _ c l hsep, replaceAllRuns_inside _ _ c l hsep,
          List.singleton_append, replaceSlash_cons, if_pos hsl, dIn, dSt, ih3, and_self]
      · by_cases hd : c = '-'
        · have hsep : isSeparator c = true := by
            rw [hd]
            decide
          simp only [replaceAllRuns_outside _ _ _ c l hs2,
            replaceAllRuns_start _ _ c l hsep, replaceAllRuns_inside _ _ c l hsep,
            List.singleton_append, replaceSlash_cons, if_neg hsl]
          rw [hd]
          simp only [dIn, dSt, List.singleton_append, ih3, and_self]
        · have hsep : isSeparator c = false := by
            simp [isSeparator, hs, hsl, hd]
          have hdash : isDash c = false := by
            simp [isDash, hd]
          simp only [replaceAllRuns_outside _ _ _ c l hs2,
            replaceAllRuns_outside _ _ _ c l hsep, replaceSlash_cons, if_neg hsl,
            replaceAllRuns_outside _ _ _ c _ hdash, ih1, and_self]

/-- The normalizer as a single scan. -/
theorem normalizeBranch_eq_scan (tbl : Char → Char) (s : String) :
    normalizeBranch tbl s =
      String.mk (replaceAllRuns isSeparator ['-'] false (s.data.map (unicodeToLower tbl))) := by
  unfold normalizeBranch
  simp only [(three_passes _).1]

theorem mem_replaceAllRuns (cls : Char → Bool) (l : List Char) :
    ∀ (b : Bool) (x : Char), x ∈ replaceAllRuns cls ['-'] b l →
      x = '-' ∨ (x ∈ l ∧ cls x = false) := by
  induction l with
  | nil =>
    intro b x hx
    simp [replaceAllRuns] at hx
  | cons c l ih =>
    intro b x hx
    by_cases hc : cls c = true
    · cases b
      · simp only [replaceAllRuns, hc, if_true, Bool.false_eq_true, if_false,
          List.singleton_append, List.mem_cons] at hx
        rcases hx with rfl | hx
        · exact Or.inl rfl
        · rcases ih true x hx with h | ⟨h1, h2⟩
          · exact Or.inl h
          · exact Or.inr ⟨List.mem_cons_of_mem _ h1, h2⟩
      · simp only [replaceAllRuns, hc, if_true] at hx
        rcases ih true x hx with h | ⟨h1, h2⟩
        · exact Or.inl h
        · exact Or.inr ⟨List.mem_cons_of_mem _ h1, h2⟩
    · simp only [replaceAllRuns, hc, Bool.false_eq_true, if_false, List.mem_cons] at hx
      rcases hx with rfl | hx
      · exact Or.inr ⟨List.mem_cons_self _ _, by simpa using hc⟩
      · rcases ih false x hx with h | ⟨h1, h2⟩
        · exact Or.inl h
        · exact Or.inr ⟨List.mem_cons_of_mem _ h1, h2⟩

theorem chain_replaceAllRuns (cls : Char → Bool) (hcls : cls '-' = true) (l : List Char) :
    (∀ b : Bool, List.Chain' noDashPair (replaceAllRuns cls ['-'] b l)) ∧
    (∀ x ∈ (replaceAllRuns cls ['-'] true l).head?, x ≠ '-') := by
  induction l with
  | nil => simp [replaceAllRuns]
  | cons c l ih =>
    obtain ⟨ih1, ih2⟩ := ih
    by_cases hc : cls c = true
    · constructor
      · intro b
        cases b
        · simp only [replaceAllRuns, hc, if_true, Bool.false_eq_true, if_false,
            List.singleton_append]
          rw [List.chain'_cons']
          exact ⟨fun y hy h => ih2 y hy h.2, ih1 true⟩
        · simp only [replaceAllRuns, hc, if_true]
          exact ih1 true
      · simp only [replaceAllRuns, hc, if_true]
        exact ih2
    · have hcd : c ≠ '-' := by
        rintro rfl
        exact hc hcls
      constructor
      · intro b
        simp only [replaceAllRuns, hc, Bool.false_eq_true, if_false]
        rw [List.chain'_cons']
        exact ⟨fun y _ h => hcd h.1, ih1 false⟩
      · simp only [replaceAllRuns, hc, Bool.false_eq_true, if_false, List.head?_cons,
          Option.mem_def, Option.some.injEq]
        rintro x rfl
        exact hcd

theorem replaceAllRuns_fixed (cls : Char → Bool) (l : List Char)
    (hcls : ∀ x ∈ l, cls x = true → x = '-') (hch : List.Chain' noDashPair l) :
    replaceAllRuns cls ['-'] false l = l ∧
    ((∀ x ∈ l.head?, x ≠ '-') → replaceAllRuns cls ['-'] true l = l) := by
  induction l with
  | nil => simp [replaceAllRuns]
  | cons c l ih =>
    rw [List.chain'_cons'] at hch
    obtain ⟨ih1, ih2⟩ := ih (fun x hx => hcls x (List.mem_cons_of_mem _ hx)) hch.2
    by_cases hc : cls c = true
    · have hcd : c = '-' := hcls c (List.mem_cons_self _ _) hc
      constructor
      · simp only [replaceAllRuns, hc, if_true, Bool.false_eq_true, if_false,
          List.singleton_append]
        rw [ih2 (fun x hx h => hch.1 x hx ⟨hcd, h⟩), hcd]
      · intro h
        exact absurd hcd (h c rfl)
    · simp only [replaceAllRuns, hc, Bool.false_eq_true, if_false, ih1]
      simp

theorem not_infix_of_chain {l : List Char} (h : List.Chain' noDashPair l) :
    ¬ (['-', '-'] <:+: l) := by
  intro hin
  have h2 : List.Chain' noDashPair ['-', '-'] := h.infix hin
  rw [List.chain'_cons'] at h2
  exact h2.1 '-' rfl ⟨rfl, rfl⟩

theorem splitBy_loop_acc (r : Char → Char → Bool) (l : List Char) :
    ∀ (a : Char) (g : List Char) (gs : List (List Char)),
      List.splitBy.loop r l a g gs = gs.reverse ++ List.splitBy.loop r l a g [] := by
  induction l with
  | nil =>
    intro a g gs
    simp [List.splitBy.loop]
  | cons b l ih =>
    intro a g gs
    cases hr : r a b
    · simp only [List.splitBy.loop, hr]
      rw [ih b [] ((a :: g).reverse :: gs), ih b [] [(a :: g).reverse]]
      simp
    · simp only [List.splitBy.loop, hr]
      exact ih b (a :: g) gs

theorem replaceRun_group (sep : Char → Bool) (a : Char) (g : List Char)
    (hg : ∀ x ∈ g, sep x = sep a) :
    replaceRun sep (a :: g).reverse = if sep a = true then ['-'] else g.reverse ++ [a] := by
  unfold replaceRun
  rw [List.all_reverse]
  by_cases ha : sep a = true
  · have hall : (a :: g).all sep = true := by
      rw [List.all_eq_true]
      intro x hx
      rcases List.mem_cons.1 hx with rfl | hx
      · exact ha
      · rw [hg x hx]
        exact ha
    rw [if_pos hall, if_pos ha]
  · have hall : ¬ (a :: g).all sep = true := by
      rw [List.all_eq_true]
      intro h
      exact ha (h a (List.mem_cons_self _ _))
    rw [if_neg hall, if_neg ha, List.reverse_cons]

/-- Gluing the replaced runs produced by the run splitter gives what the
one-pass scanner writes. -/
theorem flatten_runs_loop (sep : Char → Bool) (l : List Char) :
    ∀ (a : Char) (g : List Char), (∀ x ∈ g, sep x = sep a) →
      ((List.splitBy.loop (fun a b => sep a == sep b) l a g []).map
          (replaceRun sep)).flatten =
        if sep a = true then '-' :: replaceAllRuns sep ['-'] true l
        else g.reverse ++ a :: replaceAllRuns sep ['-'] false l := by
  induction l with
  | nil =>
    intro a g hg
    simp only [List.splitBy.loop, List.reverse_cons, List.reverse_nil, List.nil_append,
      List.map_cons, List.map_nil, List.flatten_cons, List.flatten_nil, List.append_nil,
      replaceAllRuns]
    rw [← List.reverse_cons, replaceRun_group sep a g hg]
    split <;> simp
  | cons b l ih =>
    intro a g hg
    by_cases hab : sep a = sep b
    · have hr : (sep a == sep b) = true := by simp [hab]
      have hg2 : ∀ x ∈ a :: g, sep x = sep b := by
        intro x hx
        rcases List.mem_cons.1 hx with rfl | hx
        · exact hab
        · rw [hg x hx, hab]
      simp only [List.splitBy.loop, hr]
      rw [ih b (a :: g) hg2]
      by_cases hb : sep b = true
      · rw [if_pos hb, if_pos (hab.trans hb), replaceAllRuns_inside _ _ b l hb]
      · have hb2 : sep b = false := by simpa using hb
        have ha : ¬ sep a = true := by
          rw [hab]
          exact hb
        rw [if_neg hb, if_neg ha, replaceAllRuns_outside _ _ _ b l hb2]
        simp
    · have hr : (sep a == sep b) = false := by simp [hab]
      simp only [List.splitBy.loop, hr]
      rw [splitBy_loop_acc, List.map_append, List.flatten_append, ih b [] (by simp)]
      simp only [List.reverse_cons, List.reverse_nil, List.nil_append, List.map_cons,
        List.map_nil, List.flatten_cons, List.flatten_nil, List.append_nil]
      rw [← List.reverse_cons, replaceRun_group sep a g hg]
      by_cases ha : sep a = true
      · have hb2 : sep b = false := by
          cases hb : sep b
          · rfl
          · exact absurd (ha.trans hb.symm) hab
        simp only [if_pos ha, if_neg (show ¬ sep b = true by simp [hb2]),
          replaceAllRuns_outside _ _ _ b l hb2, List.nil_append, List.singleton_append]
      · have hb : sep b = true := by
          cases hb : sep b
          · have ha2 : sep a = false := by simpa using ha
            exact absurd (ha2.trans hb.symm) hab
          · rfl
        simp only [if_neg ha, if_pos hb, replaceAllRuns_start _ _ b l hb,
          List.singleton_append, List.append_assoc]

theorem flatten_runs (sep : Char → Bool) (l : List Char) :
    collapseRuns sep l = replaceAllRuns sep ['-'] false l := by
  unfold collapseRuns
  cases l with
  | nil => rfl
  | cons a l =>
    simp only [List.splitBy]
    rw [flatten_runs_loop sep l a [] (by simp)]
    by_cases ha : sep a = true
    · rw [if_pos ha, replaceAllRuns_start _ _ a l ha]
      rfl
    · have ha2 : sep a = false := by simpa using ha
      rw [if_neg ha, replaceAllRuns_outside _ _ _ a l ha2]
      rfl

/-- The separators of the amended claim are the characters the code acts on. -/
theorem asciiSeparator_eq : asciiSeparator = isSeparator := by
  funext c
  simp [asciiSeparator, isSeparator, isSpaceClass, Bool.or_assoc]
  rfl

theorem asciiLower_idempotent_aux :
    ∀ n : Nat, n ≤ 127 →
      unicodeToLower id (unicodeToLower id (Char.ofNat n)) = unicodeToLower id (Char.ofNat n) := by
  decide

/-- With no case pairs above ASCII, lowering twice is lowering once. -/
theorem asciiLower_idempotent (c : Char) :
    unicodeToLower id (unicodeToLower id c) = unicodeToLower id c := by
  by_cases h : c.toNat ≤ 127
  · have := asciiLower_idempotent_aux c.toNat h
    rwa [Char.ofNat_toNat] at this
  · have e : unicodeToLower id c = c := by
      unfold unicodeToLower
      rw [if_neg h]
      rfl
    rw [e, e]

theorem scan_clean (l : List Char) :
    (∀ x ∈ replaceAllRuns isSeparator ['-'] false l, isSeparator x = true → x = '-') ∧
    List.Chain' noDashPair (replaceAllRuns isSeparator ['-'] false l) := by
  constructor
  · intro x hx hsep
    rcases mem_replaceAllRuns isSeparator l false x hx with h | ⟨-, h⟩
    · exact h
    · rw [h] at hsep
      cases hsep
  · exact (chain_replaceAllRuns isSeparator isSeparator_dash l).1 false

/-- The normalizer looks at the case table only at the runes of its input. -/
theorem normalizeBranch_congr (tbl tbl2 : Char → Char) (s : String)
    (h : ∀ c ∈ s.data, unicodeToLower tbl c = unicodeToLower tbl2 c) :
    normalizeBranch tbl s = normalizeBranch tbl2 s := by
  unfold normalizeBranch
  rw [List.map_congr_left h]

theorem normalizeBranchSpec_congr (tbl tbl2 : Char → Char) (s : String)
    (h : ∀ c ∈ s.data, unicodeToLower tbl c = unicodeToLower tbl2 c) :
    normalizeBranchSpec tbl s = normalizeBranchSpec tbl2 s := by
  unfold normalizeBranchSpec
  rw [List.map_congr_left h]

/-- On the letters `a`, `b`, the space and the no-break space, a case table that
leaves the no-break space alone lowers as the table without case pairs does. -/
theorem lower_nbsp_text (tbl : Char → Char) (h : tbl '\u00a0' = '\u00a0') :
    ∀ c ∈ ['a', '\u00a0', ' ', 'b'], unicodeToLower tbl c = unicodeToLower id c := by
  intro c hc
  simp only [List.mem_cons, List.mem_singleton, List.not_mem_nil, or_false] at hc
  rcases hc with rfl | rfl | rfl | rfl
  · rfl
  · exact h
  · rfl
  · rfl

/-! ## Normalizer: the claims -/

/-- C7. `normalizeBranch` is idempotent: normalizing a normalized name changes
nothing.  The case table above ASCII is a parameter; what is asked of it is that
lowering a rune twice is lowering it once, a law of the Unicode lower-case
mapping that `unicode.ToLower` implements. -/
theorem normalizeBranch_idempotent (tbl : Char → Char)
    (hlow : ∀ c, unicodeToLower tbl (unicodeToLower tbl c) = unicodeToLower tbl c)
    (s : String) :
    normalizeBranch tbl (normalizeBranch tbl s) = normalizeBranch tbl s := by
  rw [normalizeBranch_eq_scan tbl s]
  generalize ht : replaceAllRuns isSeparator ['-'] false (s.data.map (unicodeToLower tbl)) = t
  have hclean := scan_clean (s.data.map (unicodeToLower tbl))
  rw [ht] at hclean
  have hmem : ∀ x ∈ t, unicodeToLower tbl x = x := by
    intro x hx
    rw [← ht] at hx
    rcases mem_replaceAllRuns isSeparator _ false x hx with h | ⟨h, -⟩
    · rw [h]
      rfl
    · obtain ⟨y, -, rfl⟩ := List.mem_map.1 h
      exact hlow y
  have hmap : t.map (unicodeToLower tbl) = t := by
    conv_rhs => rw [← List.map_id t]
    exact List.map_congr_left hmem
  rw [normalizeBranch_eq_scan tbl (String.mk t)]
  show String.mk (replaceAllRuns isSeparator ['-'] false (t.map (unicodeToLower tbl))) = _
  rw [hmap, (replaceAllRuns_fixed isSeparator t hclean.1 hclean.2).1]

/-- C7 at the first test input of the repository, with no case pairs above ASCII. -/
theorem normalizeBranch_idempotent_witness :
    normalizeBranch id (normalizeBranch id "Feat/Add Auth") = normalizeBranch id "Feat/Add Auth" ∧
    normalizeBranch id "Feat/Add Auth" = "feat-add-auth" :=
  ⟨normalizeBranch_idempotent id asciiLower_idempotent "Feat/Add Auth", by decide⟩

/-- C8, as stated, fails at the input `a`, no-break space, `b`: the no-break
space U+00A0 is white space (for `unicode.IsSpace`, hence for `strings.Fields`
in this program), it is outside the class `[[:space:]]`, and `normalizeBranch`
returns the input unchanged, no-break space included.  This holds for every case
table that leaves U+00A0 alone, as the table of Go does. -/
theorem normalizeBranch_clean_counterexample :
    unicodeIsSpace '\u00a0' = true ∧
    normalizeBranch id "a\u00a0b" = "a\u00a0b" ∧
    '\u00a0' ∈ (normalizeBranch id "a\u00a0b").data ∧
    (∀ tbl : Char → Char, tbl '\u00a0' = '\u00a0' →
      normalizeBranch tbl "a\u00a0b" = "a\u00a0b") := by
  refine ⟨by decide, by decide, by decide, ?_⟩
  intro tbl h
  rw [normalizeBranch_congr tbl id "a\u00a0b"
    (fun c hc => lower_nbsp_text tbl h c (by
      simp only [List.mem_cons, List.mem_singleton, List.not_mem_nil, or_false] at hc ⊢
      rcases hc with rfl | rfl | rfl
      · exact Or.inl rfl
      · exact Or.inr (Or.inl rfl)
      · exact Or.inr (Or.inr (Or.inr rfl))))]
  decide

/-- C8, amended. The result of `normalizeBranch` holds no character of the ASCII
white-space class `[[:space:]]` that `whitespacePattern` matches (tab, line
feed, vertical tab, form feed, carriage return, space), no `/`, and nowhere two
`-` in a row. -/
theorem normalizeBranch_clean (tbl : Char → Char) (s : String) :
    (∀ c ∈ (normalizeBranch tbl s).data,
      c ∉ ['\t', '\n', '\x0b', '\x0c', '\r', ' '] ∧ c ≠ '/') ∧
    ¬ (['-', '-'] <:+: (normalizeBranch tbl s).data) := by
  rw [normalizeBranch_eq_scan tbl s]
  have hclean := scan_clean (s.data.map (unicodeToLower tbl))
  constructor
  · intro c hc
    have hsep : isSeparator c = true → c = '-' := hclean.1 c hc
    constructor
    · intro hmem
      have hs : isSeparator c = true := by
        simp only [List.mem_cons, List.mem_singleton, List.not_mem_nil, or_false] at hmem
        rcases hmem with rfl | rfl | rfl | rfl | rfl | rfl <;> decide
      have hd := hsep hs
      rw [hd] at hmem
      revert hmem
      decide
    · intro hsl
      have hs : isSeparator c = true := by
        rw [hsl]
        decide
      have hd := hsep hs
      rw [hd] at hsl
      revert hsl
      decide
  · exact not_infix_of_chain hclean.2

/-- C9, as stated, fails at the input `a`, no-break space, space, `b`: the
white-space run of two characters is one maximal run of separators, which the
reference of the claim replaces by one `-`, while `normalizeBranch` keeps the
no-break space and replaces the space alone.  This holds for every case table
that leaves U+00A0 alone, as the table of Go does. -/
theorem normalizeBranch_eq_ref_counterexample :
    normalizeBranch id "a\u00a0 b" = "a\u00a0-b" ∧
    normalizeBranchSpec id "a\u00a0 b" = "a-b" ∧
    (∀ tbl : Char → Char, tbl '\u00a0' = '\u00a0' →
      normalizeBranch tbl "a\u00a0 b" ≠ normalizeBranchSpec tbl "a\u00a0 b") := by
  refine ⟨by decide, by decide, ?_⟩
  intro tbl h
  rw [normalizeBranch_congr tbl id "a\u00a0 b" (lower_nbsp_text tbl h),
    normalizeBranchSpec_congr tbl id "a\u00a0 b" (lower_nbsp_text tbl h)]
  decide

/-- C9, amended. `normalizeBranch` equals its reference definition: the
lowercased input with every maximal run of ASCII separators (tab, line feed,
vertical tab, form feed, carriage return, space, `/`, `-`, mixed at will)
replaced by one `-`, every other character kept in order, white space outside
ASCII included, nothing trimmed; with the four tests of the repository, the
empty input, and an input whose leading and trailing separator runs stay as a
leading and a trailing `-`. -/
theorem normalizeBranch_eq_ref (tbl : Char → Char) :
    (∀ s : String, normalizeBranch tbl s = normalizeBranchRef tbl s) ∧
    normalizeBranch tbl "Feat/Add Auth" = "feat-add-auth" ∧
    normalizeBranch tbl "foo  bar" = "foo-bar" ∧
    normalizeBranch tbl "foo---bar" = "foo-bar" ∧
    normalizeBranch tbl "foo/bar baz" = "foo-bar-baz" ∧
    normalizeBranch tbl "" = "" ∧
    normalizeBranch tbl " /a- " = "-a-" := by
  refine ⟨?_, rfl, rfl, rfl, rfl, rfl, rfl⟩
  intro s
  rw [normalizeBranch_eq_scan tbl s]
  unfold normalizeBranchRef
  rw [flatten_runs, asciiSeparator_eq]

/-! ## Registry reader: lemmas -/

/-- Where the fallback is consulted: exactly when the registry gave no
non-empty path, that is when it could not be read, when `resolveWorktreePath`
failed with either error, or when it returned the empty path. -/
theorem cmdDeleteResolve_stale_iff (candidates : Option (List worktreeCandidate))
    (findStaleWorktree : String → Except ResolveError String) (target : String) :
    (cmdDeleteResolve candidates findStaleWorktree target).staleConsulted = true ↔
      candidates = none ∨
      ∃ cs, candidates = some cs ∧
        (resolveWorktreePath target cs = .ok "" ∨
          ∃ e, resolveWorktreePath target cs = .error e) := by
  unfold cmdDeleteResolve
  rcases candidates with _ | cs
  · simp only [true_or, iff_true]
    cases findStaleWorktree target with
    | ok r => by_cases hr : r = "" <;> simp [hr]
    | error e => cases e <;> simp
  · simp only [false_or, Option.some.injEq, exists_eq_left']
    cases hres : resolveWorktreePath target cs with
    | ok r =>
      by_cases hr : r = ""
      · subst hr
        cases findStaleWorktree target with
        | ok r2 => by_cases hr2 : r2 = "" <;> simp [hr2]
        | error e => cases e <;> simp
      · simp [hr]
    | error e =>
      cases e <;>
      · cases findStaleWorktree target with
        | ok r2 => by_cases hr2 : r2 = "" <;> simp [hr2]
        | error e2 => cases e2 <;> simp

/-- C6 at a failing input: the registry holds the two test candidates, the
target is `feat`, and `feat` is an existing directory for the fallback.
`resolveWorktreePath` answers `errMultipleMatch`; the resolution part of
`cmdDelete` prints that error, consults the fallback all the same, and ends with
the directory `feat` as the path to delete. -/
theorem cmdDelete_stale_after_ambiguous :
    resolveWorktreePath "feat" testCandidates = .error .errMultipleMatch ∧
    cmdDeleteResolve (some testCandidates)
        (fun t => if t = "feat" then .ok "feat" else .error .errNoMatch) "feat"
      = { stderr := ["Multiple worktrees match; use a longer name"],
          staleConsulted := true,
          worktreePath := "feat" } := by
  decide

end GitWorktreeHelper
